import Mathlib

/-!
Shallow embedding of the btcli private-key core:
`src/key/private_key.rs` (construction, validation, serializations) and
`src/utils/to_byte_array.rs` (hex-string → byte decoding).

Strings are embedded as `List Char`, bytes as `Nat` (with the `< 256`
invariant proved where it matters).  The external `hex` crate's `decode`
is embedded faithfully to its documented behaviour (odd-length check
first, then pairwise decoding reporting the first invalid character and
its zero-based index), which the repository's own unit test
`should_throw_error_if_invalid_hex_digits` pins down.
-/

namespace Btcli

/-- `hex::FromHexError` of the external hex crate, wrapped by the key type. -/
inductive FromHexError where
  | InvalidHexCharacter (c : Char) (index : Nat)
  | OddLength
  | InvalidStringLength
deriving DecidableEq

/-- Value of one hex digit character, matching the hex crate's `val`
(ASCII ranges `A..F`, `a..f`, `0..9`). -/
def hexVal? (c : Char) : Option Nat :=
  if 65 ≤ c.toNat ∧ c.toNat ≤ 70 then some (c.toNat - 65 + 10)
  else if 97 ≤ c.toNat ∧ c.toNat ≤ 102 then some (c.toNat - 97 + 10)
  else if 48 ≤ c.toNat ∧ c.toNat ≤ 57 then some (c.toNat - 48)
  else none

/-- Pairwise hex decoding with running chunk index `i`; character indices
reported are `2*i` and `2*i+1`, as in the hex crate. -/
def decodePairs : List Char → Nat → Except FromHexError (List Nat)
  | [], _ => .ok []
  | [_], _ => .error .OddLength
  | c1 :: c2 :: rest, i =>
    match hexVal? c1 with
    | none => .error (.InvalidHexCharacter c1 (2 * i))
    | some h =>
      match hexVal? c2 with
      | none => .error (.InvalidHexCharacter c2 (2 * i + 1))
      | some l =>
        match decodePairs rest (i + 1) with
        | .error e => .error e
        | .ok bs => .ok ((16 * h + l) :: bs)

/-- `hex::decode`: odd-length strings are rejected up front, otherwise
the string is decoded two characters per byte. -/
def hexDecode (s : List Char) : Except FromHexError (List Nat) :=
  if s.length % 2 ≠ 0 then .error .OddLength else decodePairs s 0

/-- Lowercase hex digit characters, as produced by `hex::encode`. -/
def hexDigitChar (d : Nat) : Char := "0123456789abcdef".data.getD d '0'

/-- `hex::encode`: two lowercase hex characters per byte.
Modelled from the spec: the `Key` trait impl providing `as_hex_string`
on `Vec<u8>` is not under `src/`; the spec fixes it as lowercase hex,
two characters per byte. -/
def hexEncode : List Nat → List Char
  | [] => []
  | b :: bs => hexDigitChar (b / 16) :: hexDigitChar (b % 16) :: hexEncode bs

/-- Modelled from the spec: the constant `N` lives in the missing
`src/key/constants.rs`; the spec gives its exact hex string. -/
def N : List Char :=
  "FFFFFFFFFFFFFFFFFFFFFFFFFFFFFFFEBAAEDCE6AF48A03BBFD25E8CD0364141".data

/-- The 32 bytes of the curve order, as computed by
`N.to_string().to_byte_array().unwrap()` in `from_str`. -/
def NBytes : List Nat :=
  match hexDecode N with
  | .ok bs => bs
  | .error _ => []

/-- The curve order as a natural number. -/
def Nvalue : Nat :=
  0xFFFFFFFFFFFFFFFFFFFFFFFFFFFFFFFEBAAEDCE6AF48A03BBFD25E8CD0364141

/-- `PrivateKeyError` from `src/key/private_key.rs`. -/
inductive PrivateKeyError where
  | GreaterThanCurveOrder
  | InvalidSize
  | InvalidHex (e : FromHexError)
deriving DecidableEq

/-- `PrivateKey` from `src/key/private_key.rs`: an owned byte buffer. -/
structure PrivateKey where
  key : List Nat
deriving DecidableEq

/-- Rust's `Ord` on `Vec<u8>`: lexicographic comparison, used by
`key < N.to_string().to_byte_array().unwrap()` in `from_str`. -/
def lexLt : List Nat → List Nat → Bool
  | _, [] => false
  | [], _ :: _ => true
  | a :: xs, b :: ys => if a < b then true else if b < a then false else lexLt xs ys

/-- `format!("{:0>width$}", s, width = 64)`: left-pad with `'0'` to 64. -/
def padLeft64 (s : List Char) : List Char := List.replicate (64 - s.length) '0' ++ s

/-- `PrivateKey::from_str`: reject inputs longer than 64, left-pad shorter
ones with zeros, hex-decode, and compare against the curve-order bytes. -/
def from_str (s : List Char) : Except PrivateKeyError PrivateKey :=
  if s.length > 64 then .error .InvalidSize
  else
    let padded := if s.length < 64 then padLeft64 s else s
    match hexDecode padded with
    | .error e => .error (.InvalidHex e)
    | .ok key => if lexLt key NBytes then .ok ⟨key⟩ else .error .GreaterThanCurveOrder

/-- `PrivateKey::as_hex_string`. -/
def as_hex_string (pk : PrivateKey) : List Char := hexEncode pk.key

/-- `PrivateKey::as_hex_compressed_string`: push `0x01`, then hex-encode. -/
def as_hex_compressed_string (pk : PrivateKey) : List Char :=
  hexEncode (pk.key ++ [0x01])

/-- Modelled from the spec: the checksum (computed by the missing `Key`
trait's `append_checksum`) is the first 4 bytes of the double hash of the
byte sequence; the hash itself is an external primitive, so it is a
parameter here. -/
def checksum (hash : List Nat → List Nat) (bs : List Nat) : List Nat :=
  (hash (hash bs)).take 4

/-- Modelled from the spec: `append_checksum` appends the 4-byte checksum
to the sequence it was computed from. -/
def appendChecksum (hash : List Nat → List Nat) (bs : List Nat) : List Nat :=
  bs ++ checksum hash bs

/-- The Bitcoin Base58 alphabet. -/
def base58Alphabet : List Char :=
  "123456789ABCDEFGHJKLMNPQRSTUVWXYZabcdefghijkmnopqrstuvwxyz".data

/-- Big-endian digit interpretation: fold `acc * b + d`. -/
def ofDigitsBE (b : Nat) (ds : List Nat) : Nat := ds.foldl (fun a d => a * b + d) 0

/-- Big-endian digits of `n` in base `b`, with explicit fuel (structural
recursion, kernel-reducible); `digitsBE` supplies fuel `n`. -/
def digitsBEAux (b : Nat) : Nat → Nat → List Nat
  | 0, _ => []
  | fuel + 1, n => if n = 0 then [] else digitsBEAux b fuel (n / b) ++ [n % b]

/-- Big-endian base-`b` digits of `n` (no leading zero digit; `[]` for 0). -/
def digitsBE (b n : Nat) : List Nat := digitsBEAux b n n

/-- Leading `0x00` bytes, each encoded as `'1'` by Base58. -/
def leadingZeroCount : List Nat → Nat
  | [] => 0
  | x :: rest => if x = 0 then leadingZeroCount rest + 1 else 0

/-- `bs58::encode` (external primitive per the spec): one `'1'` per
leading zero byte, then the base-58 big-endian digits of the value. -/
def base58encode (bs : List Nat) : List Char :=
  List.replicate (leadingZeroCount bs) '1' ++
    (digitsBE 58 (ofDigitsBE 256 bs)).map (fun d => base58Alphabet.getD d '1')

/-- `PrivateKey::as_wif`: insert `0x80` at the front, append the checksum,
Base58-encode.  The mutated buffer is returned as the second component
(the Rust method mutates `self.key` in place). -/
def as_wif (hash : List Nat → List Nat) (pk : PrivateKey) : List Char × PrivateKey :=
  let buf := appendChecksum hash (0x80 :: pk.key)
  (base58encode buf, ⟨buf⟩)

/-- `PrivateKey::as_wif_compressed`: insert `0x80`, push `0x01`, append
the checksum, Base58-encode. -/
def as_wif_compressed (hash : List Nat → List Nat) (pk : PrivateKey) :
    List Char × PrivateKey :=
  let buf := appendChecksum hash (0x80 :: (pk.key ++ [0x01]))
  (base58encode buf, ⟨buf⟩)

/-- Decimal rendering of a natural number (`BigUint` `Display`): base-10
digits, no leading zeros, `"0"` for zero. -/
def natToDecimal (n : Nat) : List Char :=
  if n = 0 then ['0'] else (digitsBE 10 n).map (fun d => "0123456789".data.getD d '0')

/-- `PrivateKey::as_decimals`: `format!("{}", BigUint::from_bytes_be(&self.key))`. -/
def as_decimals (pk : PrivateKey) : List Char := natToDecimal (ofDigitsBE 256 pk.key)

/-- `ToByteArray::to_byte_array` from `src/utils/to_byte_array.rs`:
`hex::decode(self).unwrap()`.  The `.unwrap()` panics on a decode error;
`none` models that panic. -/
def to_byte_array (s : List Char) : Option (List Nat) :=
  match hexDecode s with
  | .ok bs => some bs
  | .error _ => none

/-- First index of a character in a list (running index `i`). -/
def b58Index : List Char → Char → Nat → Option Nat
  | [], _, _ => none
  | a :: rest, c, i => if a = c then some i else b58Index rest c (i + 1)

/-- Modelled from the spec: Base58 digit value of a character, for the
"Base58 reverse" direction of the round-trip property. -/
def b58CharVal (c : Char) : Option Nat := b58Index base58Alphabet c 0

/-- Leading `'1'` characters of a Base58 string. -/
def countLeadingOnes : List Char → Nat
  | [] => 0
  | c :: rest => if c = '1' then countLeadingOnes rest + 1 else 0

/-- Modelled from the spec: standard Base58 decoding ("Base58 reverse"),
one leading zero byte per leading `'1'`, remaining characters interpreted
as base-58 digits of a big-endian integer. -/
def base58decode (s : List Char) : Option (List Nat) :=
  ((s.drop (countLeadingOnes s)).foldl
      (fun acc c => acc.bind fun a => (b58CharVal c).map fun d => a * 58 + d)
      (some 0)).map
    (fun v => List.replicate (countLeadingOnes s) 0 ++ digitsBE 256 v)

/-- Lowercasing of the hex letters `A`–`F` (other characters unchanged):
the case normalisation performed by decode-then-re-encode. -/
def lowerHexChar (c : Char) : Char :=
  if 65 ≤ c.toNat ∧ c.toNat ≤ 70 then Char.ofNat (c.toNat + 32) else c

/-- The number denoted by a string of hex digits (big-endian). -/
def hexStrValue (s : List Char) : Nat :=
  ofDigitsBE 16 (s.map fun c => (hexVal? c).getD 0)

/-! ## Arithmetic lemmas about big-endian digit lists -/

theorem ofDigitsBE_foldl (b : Nat) (l : List Nat) :
    ∀ a : Nat, l.foldl (fun x d => x * b + d) a = a * b ^ l.length + ofDigitsBE b l := by
  induction l with
  | nil => intro a; simp [ofDigitsBE]
  | cons d t ih =>
    intro a
    have hd : ofDigitsBE b (d :: t) = List.foldl (fun x d => x * b + d) d t := by
      simp [ofDigitsBE]
    simp only [List.foldl_cons, List.length_cons, hd]
    rw [ih (a * b + d), ih d]
    ring

theorem ofDigitsBE_cons (b d : Nat) (t : List Nat) :
    ofDigitsBE b (d :: t) = d * b ^ t.length + ofDigitsBE b t := by
  have h := ofDigitsBE_foldl b t d
  simpa [ofDigitsBE] using h

theorem ofDigitsBE_concat (b d : Nat) (l : List Nat) :
    ofDigitsBE b (l ++ [d]) = ofDigitsBE b l * b + d := by
  simp [ofDigitsBE, List.foldl_append]

theorem ofDigitsBE_lt (b : Nat) (l : List Nat) (h : ∀ x ∈ l, x < b) :
    ofDigitsBE b l < b ^ l.length := by
  induction l with
  | nil => simp [ofDigitsBE]
  | cons d t ih =>
    have hd : d < b := h d (List.mem_cons_self d t)
    have ht : ofDigitsBE b t < b ^ t.length :=
      ih fun x hx => h x (List.mem_cons_of_mem _ hx)
    rw [ofDigitsBE_cons]
    calc d * b ^ t.length + ofDigitsBE b t
        < d * b ^ t.length + b ^ t.length := by omega
      _ = (d + 1) * b ^ t.length := by ring
      _ ≤ b * b ^ t.length := Nat.mul_le_mul_right _ (by omega)
      _ = b ^ (t.length + 1) := by ring
      _ = b ^ (d :: t).length := by simp

theorem ofDigitsBE_pos (b d : Nat) (t : List Nat) (hb : 0 < b) (hd : d ≠ 0) :
    0 < ofDigitsBE b (d :: t) := by
  rw [ofDigitsBE_cons]
  have : 0 < b ^ t.length := pow_pos hb _
  have : 1 * 1 ≤ d * b ^ t.length := Nat.mul_le_mul (by omega) (by omega)
  omega

theorem ofDigitsBE_replicate_zero (b k : Nat) (l : List Nat) :
    ofDigitsBE b (List.replicate k 0 ++ l) = ofDigitsBE b l := by
  induction k with
  | zero => simp
  | succ m ih => simpa [ofDigitsBE, List.replicate_succ] using ih

theorem lexLt_iff :
    ∀ (l1 l2 : List Nat), l1.length = l2.length →
      (∀ x ∈ l1, x < 256) → (∀ x ∈ l2, x < 256) →
      (lexLt l1 l2 = true ↔ ofDigitsBE 256 l1 < ofDigitsBE 256 l2)
  | [], [], _, _, _ => by simp [lexLt, ofDigitsBE]
  | [], _ :: _, h, _, _ => by simp at h
  | _ :: _, [], h, _, _ => by simp at h
  | a :: xs, b :: ys, hlen, h1, h2 => by
    have hL : xs.length = ys.length := by simpa using hlen
    have hX : ofDigitsBE 256 xs < 256 ^ xs.length :=
      ofDigitsBE_lt _ _ fun x hx => h1 x (List.mem_cons_of_mem _ hx)
    have hY : ofDigitsBE 256 ys < 256 ^ ys.length :=
      ofDigitsBE_lt _ _ fun x hx => h2 x (List.mem_cons_of_mem _ hx)
    rw [ofDigitsBE_cons, ofDigitsBE_cons, hL]
    by_cases hab : a < b
    · simp only [lexLt, hab, if_true, true_iff]
      calc a * 256 ^ ys.length + ofDigitsBE 256 xs
          < a * 256 ^ ys.length + 256 ^ ys.length := by rw [← hL]; omega
        _ = (a + 1) * 256 ^ ys.length := by ring
        _ ≤ b * 256 ^ ys.length := Nat.mul_le_mul_right _ (by omega)
        _ ≤ b * 256 ^ ys.length + ofDigitsBE 256 ys := Nat.le_add_right _ _
    · by_cases hba : b < a
      · simp only [lexLt, hab, if_false, hba, if_true, Bool.false_eq_true,
          false_iff, not_lt]
        calc b * 256 ^ ys.length + ofDigitsBE 256 ys
            ≤ b * 256 ^ ys.length + 256 ^ ys.length := by omega
          _ = (b + 1) * 256 ^ ys.length := by ring
          _ ≤ a * 256 ^ ys.length := Nat.mul_le_mul_right _ (by omega)
          _ ≤ a * 256 ^ ys.length + ofDigitsBE 256 xs := Nat.le_add_right _ _
      · have hab2 : a = b := by omega
        subst hab2
        simp only [lexLt, hab, if_false]
        rw [lexLt_iff xs ys hL (fun x hx => h1 x (List.mem_cons_of_mem _ hx))
          (fun x hx => h2 x (List.mem_cons_of_mem _ hx))]
        omega

theorem digitsBEAux_zero (b fuel : Nat) : digitsBEAux b fuel 0 = [] := by
  cases fuel <;> simp [digitsBEAux]

theorem digitsBE_zero (b : Nat) : digitsBE b 0 = [] := by
  simp [digitsBE, digitsBEAux_zero]

theorem digitsBEAux_stable (b : Nat) (hb : 2 ≤ b) :
    ∀ f1 f2 n, n ≤ f1 → n ≤ f2 → digitsBEAux b f1 n = digitsBEAux b f2 n := by
  intro f1
  induction f1 with
  | zero =>
    intro f2 n h1 _
    have : n = 0 := by omega
    subst this
    rw [digitsBEAux_zero, digitsBEAux_zero]
  | succ f ih =>
    intro f2 n h1 h2
    by_cases hn : n = 0
    · subst hn; rw [digitsBEAux_zero, digitsBEAux_zero]
    · obtain ⟨g, rfl⟩ : ∃ g, f2 = g + 1 := ⟨f2 - 1, by omega⟩
      simp only [digitsBEAux, hn, if_false]
      have hdiv : n / b < n := Nat.div_lt_self (by omega) (by omega)
      rw [ih g (n / b) (by omega) (by omega)]

theorem ofDigitsBE_digitsBEAux (b : Nat) (hb : 2 ≤ b) :
    ∀ fuel n, n ≤ fuel → ofDigitsBE b (digitsBEAux b fuel n) = n := by
  intro fuel
  induction fuel with
  | zero =>
    intro n h
    have : n = 0 := by omega
    subst this
    rw [digitsBEAux_zero]; simp [ofDigitsBE]
  | succ f ih =>
    intro n h
    by_cases hn : n = 0
    · subst hn; rw [digitsBEAux_zero]; simp [ofDigitsBE]
    · simp only [digitsBEAux, hn, if_false]
      rw [ofDigitsBE_concat]
      have hdiv : n / b < n := Nat.div_lt_self (by omega) (by omega)
      rw [ih (n / b) (by omega), Nat.mul_comm]
      exact Nat.div_add_mod n b

theorem ofDigitsBE_digitsBE (b n : Nat) (hb : 2 ≤ b) :
    ofDigitsBE b (digitsBE b n) = n :=
  ofDigitsBE_digitsBEAux b hb n n le_rfl

theorem digitsBEAux_lt (b : Nat) (hb : 0 < b) :
    ∀ fuel n x, x ∈ digitsBEAux b fuel n → x < b := by
  intro fuel
  induction fuel with
  | zero => intro n x hx; simp [digitsBEAux] at hx
  | succ f ih =>
    intro n x hx
    by_cases hn : n = 0
    · subst hn; rw [digitsBEAux_zero] at hx; simp at hx
    · simp only [digitsBEAux, hn, if_false, List.mem_append, List.mem_singleton] at hx
      rcases hx with hx | hx
      · exact ih _ _ hx
      · subst hx; exact Nat.mod_lt _ hb

theorem digitsBE_lt (b n : Nat) (hb : 0 < b) : ∀ x ∈ digitsBE b n, x < b :=
  fun x hx => digitsBEAux_lt b hb n n x hx

theorem digitsBEAux_head (b : Nat) (hb : 2 ≤ b) :
    ∀ fuel n, n ≠ 0 → n ≤ fuel →
      digitsBEAux b fuel n ≠ [] ∧ (digitsBEAux b fuel n).headD 1 ≠ 0 := by
  intro fuel
  induction fuel with
  | zero => intro n hn h; omega
  | succ f ih =>
    intro n hn h
    simp only [digitsBEAux, hn, if_false]
    by_cases hq : n / b = 0
    · rw [hq, digitsBEAux_zero]
      have hnb : n < b := (Nat.div_eq_zero_iff (by omega)).mp hq
      simp [Nat.mod_eq_of_lt hnb, hn]
    · obtain ⟨hne, hhead⟩ := ih (n / b) hq (by
        have : n / b < n := Nat.div_lt_self (by omega) (by omega)
        omega)
      obtain ⟨x, t, hx⟩ := List.exists_cons_of_ne_nil hne
      rw [hx] at hhead ⊢
      simpa using hhead

theorem digitsBE_head (b n : Nat) (hb : 2 ≤ b) (hn : n ≠ 0) :
    digitsBE b n ≠ [] ∧ (digitsBE b n).headD 1 ≠ 0 :=
  digitsBEAux_head b hb n n hn le_rfl

theorem digitsBE_mul_add (b u d : Nat) (hb : 2 ≤ b) (hd : d < b)
    (h : ¬(u = 0 ∧ d = 0)) :
    digitsBE b (u * b + d) = digitsBE b u ++ [d] := by
  have hv : u * b + d ≠ 0 := by
    rcases Nat.eq_zero_or_pos u with hu | hu
    · subst hu; omega
    · have : 1 * b ≤ u * b := Nat.mul_le_mul_right b (by omega)
      omega
  obtain ⟨m, hm⟩ : ∃ m, u * b + d = m + 1 := ⟨u * b + d - 1, by omega⟩
  have hdiv : (u * b + d) / b = u := by
    rw [Nat.add_comm, Nat.add_mul_div_right _ _ (by omega : 0 < b),
      Nat.div_eq_of_lt hd]
    omega
  have hmod : (u * b + d) % b = d := by
    rw [Nat.add_comm, Nat.add_mul_mod_self_right, Nat.mod_eq_of_lt hd]
  have hle : u ≤ m := by
    rcases Nat.eq_zero_or_pos u with hu | hu
    · omega
    · have : u * 2 ≤ u * b := Nat.mul_le_mul_left u hb
      omega
  calc digitsBE b (u * b + d)
      = digitsBEAux b (m + 1) (u * b + d) := by rw [digitsBE, hm]
    _ = digitsBEAux b m ((u * b + d) / b) ++ [(u * b + d) % b] := by
        simp [digitsBEAux, hv]
    _ = digitsBEAux b m u ++ [d] := by rw [hdiv, hmod]
    _ = digitsBE b u ++ [d] := by
        rw [digitsBE, digitsBEAux_stable b hb m u u hle le_rfl]

theorem digitsBE_ofDigitsBE (b : Nat) (hb : 2 ≤ b) (l : List Nat)
    (hlt : ∀ x ∈ l, x < b) (hhead : l.headD 1 ≠ 0) :
    digitsBE b (ofDigitsBE b l) = l := by
  induction l using List.reverseRecOn with
  | nil => simp [ofDigitsBE, digitsBE_zero]
  | append_singleton xs d ih =>
    have hd : d < b := hlt d (by simp)
    rw [ofDigitsBE_concat]
    cases xs with
    | nil =>
      have hd0 : d ≠ 0 := by simpa using hhead
      rw [digitsBE_mul_add b _ d hb hd (by simp [ofDigitsBE]; omega)]
      simp [ofDigitsBE, digitsBE_zero]
    | cons x t =>
      have hx0 : x ≠ 0 := by simpa using hhead
      have hpos : 0 < ofDigitsBE b (x :: t) :=
        ofDigitsBE_pos b x t (by omega) hx0
      rw [digitsBE_mul_add b _ d hb hd (by omega)]
      rw [ih (fun y hy => hlt y (List.mem_append_left _ hy)) (by simpa using hx0)]

/-! ## Lemmas about hex decoding and encoding -/

theorem char_toNat_inj (a b : Char) (h : a.toNat = b.toNat) : a = b :=
  Char.eq_of_val_eq (UInt32.eq_of_toBitVec_eq (BitVec.eq_of_toNat_eq h))

theorem hexVal?_lt (c : Char) (v : Nat) (h : hexVal? c = some v) : v < 16 := by
  unfold hexVal? at h
  split_ifs at h with h1 h2 h3 <;> (injection h with h; omega)

theorem hexVal?_digitChar (c : Char) (v : Nat) (h : hexVal? c = some v) :
    hexDigitChar v = lowerHexChar c := by
  unfold hexVal? at h
  unfold lowerHexChar
  split_ifs at h with h1 h2 h3
  · injection h with h
    subst h
    rw [if_pos h1]
    obtain ⟨ha, hb⟩ := h1
    generalize hn : c.toNat = n at ha hb ⊢
    interval_cases n <;> decide
  · injection h with h
    subst h
    rw [if_neg h1]
    apply char_toNat_inj
    obtain ⟨ha, hb⟩ := h2
    generalize hn : c.toNat = n at ha hb ⊢
    interval_cases n <;> decide
  · injection h with h
    subst h
    rw [if_neg h1]
    apply char_toNat_inj
    obtain ⟨ha, hb⟩ := h3
    generalize hn : c.toNat = n at ha hb ⊢
    interval_cases n <;> decide

theorem hexEncode_append (l1 l2 : List Nat) :
    hexEncode (l1 ++ l2) = hexEncode l1 ++ hexEncode l2 := by
  induction l1 with
  | nil => simp [hexEncode]
  | cons x t ih => simp [hexEncode, ih]

theorem hexEncode_length (l : List Nat) : (hexEncode l).length = 2 * l.length := by
  induction l with
  | nil => simp [hexEncode]
  | cons x t ih => simp [hexEncode, ih]; omega

theorem decodePairs_length :
    ∀ (s : List Char) (i : Nat) (bs : List Nat),
      decodePairs s i = .ok bs → s.length = 2 * bs.length
  | [], _, bs, h => by
    simp only [decodePairs, Except.ok.injEq] at h
    subst h; simp
  | [c], _, bs, h => by simp [decodePairs] at h
  | c1 :: c2 :: rest, i, bs, h => by
    simp only [decodePairs] at h
    cases hv1 : hexVal? c1 with
    | none => rw [hv1] at h; simp at h
    | some h1 =>
      rw [hv1] at h
      cases hv2 : hexVal? c2 with
      | none => rw [hv2] at h; simp at h
      | some l1 =>
        rw [hv2] at h
        cases hrec : decodePairs rest (i + 1) with
        | error e => rw [hrec] at h; simp at h
        | ok bs2 =>
          rw [hrec] at h
          simp only [Except.ok.injEq] at h
          subst h
          have := decodePairs_length rest (i + 1) bs2 hrec
          simp [this]; omega

theorem decodePairs_lt :
    ∀ (s : List Char) (i : Nat) (bs : List Nat),
      decodePairs s i = .ok bs → ∀ x ∈ bs, x < 256
  | [], _, bs, h => by
    simp only [decodePairs, Except.ok.injEq] at h
    subst h; simp
  | [c], _, bs, h => by simp [decodePairs] at h
  | c1 :: c2 :: rest, i, bs, h => by
    simp only [decodePairs] at h
    cases hv1 : hexVal? c1 with
    | none => rw [hv1] at h; simp at h
    | some h1 =>
      rw [hv1] at h
      cases hv2 : hexVal? c2 with
      | none => rw [hv2] at h; simp at h
      | some l1 =>
        rw [hv2] at h
        cases hrec : decodePairs rest (i + 1) with
        | error e => rw [hrec] at h; simp at h
        | ok bs2 =>
          rw [hrec] at h
          simp only [Except.ok.injEq] at h
          subst h
          intro x hx
          rcases List.mem_cons.mp hx with hx | hx
          · have hh := hexVal?_lt c1 h1 hv1
            have hl := hexVal?_lt c2 l1 hv2
            omega
          · exact decodePairs_lt rest (i + 1) bs2 hrec x hx

theorem decodePairs_value :
    ∀ (s : List Char) (i : Nat) (bs : List Nat),
      decodePairs s i = .ok bs →
        ofDigitsBE 16 (s.map fun c => (hexVal? c).getD 0) = ofDigitsBE 256 bs
  | [], _, bs, h => by
    simp only [decodePairs, Except.ok.injEq] at h
    subst h; simp [ofDigitsBE]
  | [c], _, bs, h => by simp [decodePairs] at h
  | c1 :: c2 :: rest, i, bs, h => by
    simp only [decodePairs] at h
    cases hv1 : hexVal? c1 with
    | none => rw [hv1] at h; simp at h
    | some h1 =>
      rw [hv1] at h
      cases hv2 : hexVal? c2 with
      | none => rw [hv2] at h; simp at h
      | some l1 =>
        rw [hv2] at h
        cases hrec : decodePairs rest (i + 1) with
        | error e => rw [hrec] at h; simp at h
        | ok bs2 =>
          rw [hrec] at h
          simp only [Except.ok.injEq] at h
          subst h
          have ihv := decodePairs_value rest (i + 1) bs2 hrec
          have hlen := decodePairs_length rest (i + 1) bs2 hrec
          simp only [List.map_cons, hv1, hv2, Option.getD_some]
          rw [ofDigitsBE_cons, ofDigitsBE_cons, ofDigitsBE_cons, ihv]
          simp only [List.length_map, List.length_cons, hlen]
          have hpow : (16 : Nat) ^ (2 * bs2.length + 1) =
              16 * (256 : Nat) ^ bs2.length := by
            rw [pow_succ, pow_mul]
            norm_num [Nat.mul_comm]
          have hpow2 : (16 : Nat) ^ (2 * bs2.length) = (256 : Nat) ^ bs2.length := by
            rw [pow_mul]; norm_num
          rw [hpow, hpow2]
          ring

theorem decodePairs_ok :
    ∀ (s : List Char) (i : Nat), s.length % 2 = 0 →
      (∀ c ∈ s, (hexVal? c).isSome) → ∃ bs, decodePairs s i = .ok bs
  | [], _, _, _ => ⟨[], rfl⟩
  | [c], _, h, _ => by simp at h
  | c1 :: c2 :: rest, i, heven, hhex => by
    obtain ⟨h1, hv1⟩ := Option.isSome_iff_exists.mp (hhex c1 (by simp))
    obtain ⟨l1, hv2⟩ := Option.isSome_iff_exists.mp (hhex c2 (by simp))
    obtain ⟨bs2, hrec⟩ := decodePairs_ok rest (i + 1)
      (by simp only [List.length_cons] at heven; omega)
      (fun c hc => hhex c (by simp [hc]))
    exact ⟨(16 * h1 + l1) :: bs2, by simp [decodePairs, hv1, hv2, hrec]⟩

theorem decodePairs_encode :
    ∀ (s : List Char) (i : Nat) (bs : List Nat),
      decodePairs s i = .ok bs → hexEncode bs = s.map lowerHexChar
  | [], _, bs, h => by
    simp only [decodePairs, Except.ok.injEq] at h
    subst h; simp [hexEncode]
  | [c], _, bs, h => by simp [decodePairs] at h
  | c1 :: c2 :: rest, i, bs, h => by
    simp only [decodePairs] at h
    cases hv1 : hexVal? c1 with
    | none => rw [hv1] at h; simp at h
    | some h1 =>
      rw [hv1] at h
      cases hv2 : hexVal? c2 with
      | none => rw [hv2] at h; simp at h
      | some l1 =>
        rw [hv2] at h
        cases hrec : decodePairs rest (i + 1) with
        | error e => rw [hrec] at h; simp at h
        | ok bs2 =>
          rw [hrec] at h
          simp only [Except.ok.injEq] at h
          subst h
          have ih := decodePairs_encode rest (i + 1) bs2 hrec
          have hh := hexVal?_lt c1 h1 hv1
          have hl := hexVal?_lt c2 l1 hv2
          have hdiv : (16 * h1 + l1) / 16 = h1 := by omega
          have hmod : (16 * h1 + l1) % 16 = l1 := by omega
          simp only [hexEncode, hdiv, hmod, List.map_cons, ih,
            hexVal?_digitChar c1 h1 hv1, hexVal?_digitChar c2 l1 hv2]

theorem decodePairs_err :
    ∀ (t : List Char) (c : Char) (r : List Char) (i : Nat),
      (t.length + 1 + r.length) % 2 = 0 →
      (∀ x ∈ t, (hexVal? x).isSome) → hexVal? c = none →
      decodePairs (t ++ c :: r) i = .error (.InvalidHexCharacter c (2 * i + t.length))
  | [], c, r, i, heven, _, hc => by
    cases r with
    | nil => simp at heven
    | cons c2 rest => simp [decodePairs, hc]
  | [t1], c, r, i, heven, ht, hc => by
    obtain ⟨h1, hv1⟩ := Option.isSome_iff_exists.mp (ht t1 (by simp))
    simp [decodePairs, hv1, hc]
  | t1 :: t2 :: ts, c, r, i, heven, ht, hc => by
    obtain ⟨h1, hv1⟩ := Option.isSome_iff_exists.mp (ht t1 (by simp))
    obtain ⟨h2, hv2⟩ := Option.isSome_iff_exists.mp (ht t2 (by simp))
    have ih := decodePairs_err ts c r (i + 1)
      (by simp only [List.length_cons] at heven; omega)
      (fun x hx => ht x (by simp [hx])) hc
    simp only [List.cons_append, decodePairs, List.append_eq, hv1, hv2, ih,
      List.length_cons]
    congr 2
    omega

/-! ## Lemmas about Base58 encoding and decoding -/

theorem b58CharVal_alphabet :
    ∀ d : Nat, d < 58 → b58CharVal (base58Alphabet.getD d '1') = some d := by decide

theorem base58Alphabet_ne_one :
    ∀ d : Nat, d < 58 → d ≠ 0 → base58Alphabet.getD d '1' ≠ '1' := by decide

theorem countLeadingOnes_cons_ne (c : Char) (rest : List Char) (h : c ≠ '1') :
    countLeadingOnes (c :: rest) = 0 := by simp [countLeadingOnes, h]

theorem b58fold_map :
    ∀ (ds : List Nat), (∀ d ∈ ds, d < 58) → ∀ a : Nat,
      (ds.map fun d => base58Alphabet.getD d '1').foldl
          (fun acc c => acc.bind fun a => (b58CharVal c).map fun d => a * 58 + d)
          (some a)
        = some (ds.foldl (fun x d => x * 58 + d) a)
  | [], _, a => by simp
  | d :: t, h, a => by
    have hd : d < 58 := h d (by simp)
    simp only [List.map_cons, List.foldl_cons, Option.some_bind,
      b58CharVal_alphabet d hd, Option.map_some']
    exact b58fold_map t (fun x hx => h x (by simp [hx])) (a * 58 + d)

/-- Base58 round trip: decoding the encoding of a byte sequence whose first
byte is nonzero recovers it exactly. -/
theorem base58_roundTrip (bs : List Nat) (hne : bs ≠ []) (hhead : bs.headD 1 ≠ 0)
    (hlt : ∀ y ∈ bs, y < 256) :
    base58decode (base58encode bs) = some bs := by
  obtain ⟨x, t, rfl⟩ := List.exists_cons_of_ne_nil hne
  have hx0 : x ≠ 0 := by simpa using hhead
  have hvpos : 0 < ofDigitsBE 256 (x :: t) := ofDigitsBE_pos 256 x t (by omega) hx0
  have hzc : leadingZeroCount (x :: t) = 0 := by simp [leadingZeroCount, hx0]
  obtain ⟨hdne, hdhead⟩ := digitsBE_head 58 (ofDigitsBE 256 (x :: t))
    (by norm_num) (by omega)
  have hdlt : ∀ d ∈ digitsBE 58 (ofDigitsBE 256 (x :: t)), d < 58 :=
    digitsBE_lt 58 _ (by norm_num)
  obtain ⟨d0, ds, hds⟩ := List.exists_cons_of_ne_nil hdne
  have hd0 : d0 ≠ 0 := by rw [hds] at hdhead; simpa using hdhead
  have hd0lt : d0 < 58 := hdlt d0 (by rw [hds]; simp)
  have hne1 : base58Alphabet.getD d0 '1' ≠ '1' := base58Alphabet_ne_one d0 hd0lt hd0
  have henc : base58encode (x :: t) =
      (digitsBE 58 (ofDigitsBE 256 (x :: t))).map fun d => base58Alphabet.getD d '1' := by
    rw [base58encode, hzc]
    simp
  have hcl : countLeadingOnes (base58encode (x :: t)) = 0 := by
    rw [henc, hds, List.map_cons]
    exact countLeadingOnes_cons_ne _ _ hne1
  rw [base58decode, hcl, List.drop_zero, henc, b58fold_map _ hdlt 0]
  have hofd : (digitsBE 58 (ofDigitsBE 256 (x :: t))).foldl
      (fun x d => x * 58 + d) 0 = ofDigitsBE 256 (x :: t) :=
    ofDigitsBE_digitsBE 58 _ (by norm_num)
  rw [hofd]
  simp only [Option.map_some', List.replicate_zero, List.nil_append]
  rw [digitsBE_ofDigitsBE 256 (by norm_num) (x :: t) hlt hhead]

/-! ## Assembly lemmas about from_str -/

theorem NBytes_length : NBytes.length = 32 := by decide

theorem NBytes_lt : ∀ x ∈ NBytes, x < 256 := by decide

theorem NBytes_value : ofDigitsBE 256 NBytes = Nvalue := by decide

theorem hexVal?_zero : hexVal? '0' = some 0 := by decide

theorem lowerHexChar_zero : lowerHexChar '0' = '0' := by decide

theorem padLeft64_length (s : List Char) (h : s.length ≤ 64) :
    (padLeft64 s).length = 64 := by
  simp [padLeft64]
  omega

theorem from_str_eq (s : List Char) (h : s.length ≤ 64) :
    from_str s =
      match hexDecode (padLeft64 s) with
      | .error e => .error (.InvalidHex e)
      | .ok key =>
          if lexLt key NBytes then .ok ⟨key⟩ else .error .GreaterThanCurveOrder := by
  have hpad : (if s.length < 64 then padLeft64 s else s) = padLeft64 s := by
    by_cases hlt : s.length < 64
    · rw [if_pos hlt]
    · rw [if_neg hlt]
      have h64 : 64 - s.length = 0 := by omega
      simp [padLeft64, h64]
  simp only [from_str, hpad]
  rw [if_neg (by omega : ¬s.length > 64)]

theorem from_str_eq_ok (s : List Char) (h : s.length ≤ 64) (bs : List Nat)
    (hd : hexDecode (padLeft64 s) = .ok bs) :
    from_str s =
      if lexLt bs NBytes then .ok ⟨bs⟩ else .error .GreaterThanCurveOrder := by
  rw [from_str_eq s h, hd]

theorem from_str_eq_err (s : List Char) (h : s.length ≤ 64) (e : FromHexError)
    (hd : hexDecode (padLeft64 s) = .error e) :
    from_str s = .error (.InvalidHex e) := by
  rw [from_str_eq s h, hd]

theorem from_str_ok_inv (s : List Char) (pk : PrivateKey) (h : from_str s = .ok pk) :
    s.length ≤ 64 ∧
      ∃ bs, hexDecode (padLeft64 s) = .ok bs ∧ pk.key = bs ∧ lexLt bs NBytes = true := by
  by_cases h64 : s.length > 64
  · rw [from_str, if_pos h64] at h
    simp at h
  · refine ⟨by omega, ?_⟩
    cases hd : hexDecode (padLeft64 s) with
    | error e =>
      rw [from_str_eq_err s (by omega) e hd] at h
      simp at h
    | ok bs =>
      rw [from_str_eq_ok s (by omega) bs hd] at h
      by_cases hlex : lexLt bs NBytes
      · rw [if_pos hlex] at h
        simp only [Except.ok.injEq] at h
        exact ⟨bs, rfl, by rw [← h], hlex⟩
      · rw [if_neg hlex] at h
        simp at h

theorem hexDecode_ok_inv (s : List Char) (bs : List Nat)
    (h : hexDecode s = .ok bs) :
    s.length % 2 = 0 ∧ decodePairs s 0 = .ok bs := by
  rw [hexDecode] at h
  by_cases he : s.length % 2 ≠ 0
  · rw [if_pos he] at h; simp at h
  · rw [if_neg he] at h
    exact ⟨by omega, h⟩

/-- Every successfully constructed key: 32 bytes, all below 256, value
strictly below the curve order. -/
theorem from_str_key_facts (s : List Char) (pk : PrivateKey)
    (h : from_str s = .ok pk) :
    pk.key.length = 32 ∧ (∀ x ∈ pk.key, x < 256) ∧ ofDigitsBE 256 pk.key < Nvalue := by
  obtain ⟨h64, bs, hd, hkey, hlex⟩ := from_str_ok_inv s pk h
  obtain ⟨-, hdp⟩ := hexDecode_ok_inv _ _ hd
  have hplen : (padLeft64 s).length = 64 := padLeft64_length s h64
  have hlen : bs.length = 32 := by
    have := decodePairs_length _ _ _ hdp
    omega
  have hlt : ∀ x ∈ bs, x < 256 := decodePairs_lt _ _ _ hdp
  have hval : ofDigitsBE 256 bs < Nvalue := by
    rw [← NBytes_value]
    exact (lexLt_iff bs NBytes (by rw [hlen, NBytes_length]) hlt NBytes_lt).mp hlex
  exact ⟨by rw [hkey, hlen], by rw [hkey]; exact hlt, by rw [hkey]; exact hval⟩

theorem hexDecode_padded_ok (s : List Char) (h64 : s.length ≤ 64)
    (hhex : ∀ c ∈ s, (hexVal? c).isSome) :
    ∃ bs, hexDecode (padLeft64 s) = .ok bs ∧ ofDigitsBE 256 bs = hexStrValue s ∧
      hexEncode bs = (padLeft64 s).map lowerHexChar := by
  have hphex : ∀ c ∈ padLeft64 s, (hexVal? c).isSome := by
    intro c hc
    rcases List.mem_append.mp hc with hc | hc
    · rw [List.eq_of_mem_replicate hc, hexVal?_zero]; rfl
    · exact hhex c hc
  have hplen : (padLeft64 s).length = 64 := padLeft64_length s h64
  obtain ⟨bs, hdp⟩ := decodePairs_ok (padLeft64 s) 0 (by omega) hphex
  refine ⟨bs, ?_, ?_, decodePairs_encode _ _ _ hdp⟩
  · rw [hexDecode, if_neg (by omega)]
    exact hdp
  · rw [← decodePairs_value _ _ _ hdp]
    have hmap : (padLeft64 s).map (fun c => (hexVal? c).getD 0) =
        List.replicate (64 - s.length) 0 ++ s.map fun c => (hexVal? c).getD 0 := by
      rw [padLeft64, List.map_append, List.map_replicate, hexVal?_zero]
      rfl
    rw [hmap, ofDigitsBE_replicate_zero]
    rfl

/-- Shared helper: `from_str` on an input whose first non-hex character is
`c` (valid-hex prefix `t`) fails with `InvalidHex` carrying `c` and its
index in the zero-padded 64-character string. -/
theorem from_str_first_bad_char (t : List Char) (c : Char) (r : List Char)
    (h64 : (t ++ c :: r).length ≤ 64)
    (ht : ∀ x ∈ t, (hexVal? x).isSome) (hc : hexVal? c = none) :
    from_str (t ++ c :: r) =
      .error (.InvalidHex (.InvalidHexCharacter c
        (64 - (t ++ c :: r).length + t.length))) := by
  have hplen : (padLeft64 (t ++ c :: r)).length = 64 := padLeft64_length _ h64
  have hassoc : padLeft64 (t ++ c :: r) =
      (List.replicate (64 - (t ++ c :: r).length) '0' ++ t) ++ c :: r := by
    rw [padLeft64, List.append_assoc]
  have hvalid : ∀ x ∈ List.replicate (64 - (t ++ c :: r).length) '0' ++ t,
      (hexVal? x).isSome := by
    intro x hx
    rcases List.mem_append.mp hx with hx | hx
    · rw [List.eq_of_mem_replicate hx, hexVal?_zero]; rfl
    · exact ht x hx
  have heven : ((List.replicate (64 - (t ++ c :: r).length) '0' ++ t).length + 1 +
      r.length) % 2 = 0 := by
    have h1 : (padLeft64 (t ++ c :: r)).length =
        (List.replicate (64 - (t ++ c :: r).length) '0' ++ t).length + 1 + r.length := by
      rw [hassoc]
      simp
      omega
    omega
  have herr := decodePairs_err _ c r 0 heven hvalid hc
  have hdec : hexDecode (padLeft64 (t ++ c :: r)) =
      .error (.InvalidHexCharacter c (64 - (t ++ c :: r).length + t.length)) := by
    rw [hexDecode, if_neg (by omega), hassoc, herr]
    congr 2
    simp
  exact from_str_eq_err _ h64 _ hdec

/-! ## Claim theorems -/

/-- C1 (counterexample): the input `"A"` has at most 64 hex characters and
decodes to 10 < n, construction succeeds, but `as_hex_string` returns the
lowercased `"00…0a"`, not the input left-padded (`"00…0A"`). -/
theorem C1_counterexample :
    hexStrValue ['A'] = 10 ∧ (10 : Nat) < Nvalue ∧
      from_str ['A'] = .ok ⟨List.replicate 31 0 ++ [10]⟩ ∧
      as_hex_string ⟨List.replicate 31 0 ++ [10]⟩ ≠ padLeft64 ['A'] := by
  refine ⟨by decide, by decide, by rfl, by decide⟩

/-- C1 (amended): for every input of at most 64 valid hex characters whose
value is strictly below the curve order, `from_str` succeeds and
`as_hex_string` returns the zero-padded input with its hex letters
lowercased; this equals the padded input exactly when the input contains
no uppercase hex letters. -/
theorem C1_roundtrip_padded (s : List Char) (h64 : s.length ≤ 64)
    (hhex : ∀ c ∈ s, (hexVal? c).isSome) (hval : hexStrValue s < Nvalue) :
    ∃ pk, from_str s = .ok pk ∧
      as_hex_string pk = (padLeft64 s).map lowerHexChar ∧
      ((∀ c ∈ s, lowerHexChar c = c) → as_hex_string pk = padLeft64 s) := by
  obtain ⟨bs, hd, hv, henc⟩ := hexDecode_padded_ok s h64 hhex
  obtain ⟨-, hdp⟩ := hexDecode_ok_inv _ _ hd
  have hplen : (padLeft64 s).length = 64 := padLeft64_length s h64
  have hlen : bs.length = 32 := by
    have := decodePairs_length _ _ _ hdp
    omega
  have hlt := decodePairs_lt _ _ _ hdp
  have hlex : lexLt bs NBytes = true :=
    (lexLt_iff bs NBytes (by rw [hlen, NBytes_length]) hlt NBytes_lt).mpr
      (by rw [hv, NBytes_value]; omega)
  refine ⟨⟨bs⟩, ?_, henc, ?_⟩
  · rw [from_str_eq_ok s h64 bs hd, if_pos hlex]
  · intro hfix
    show hexEncode bs = padLeft64 s
    rw [henc, padLeft64, List.map_append, List.map_replicate, lowerHexChar_zero]
    have hmaps : s.map lowerHexChar = s.map id :=
      List.map_congr_left fun a ha => hfix a ha
    rw [hmaps, List.map_id]

/-- C1 witness: instantiation at the lowercase input `"7f"`. -/
theorem C1_witness :
    ∃ pk, from_str ['7', 'f'] = .ok pk ∧
      as_hex_string pk = (padLeft64 ['7', 'f']).map lowerHexChar ∧
      ((∀ c ∈ ['7', 'f'], lowerHexChar c = c) →
        as_hex_string pk = padLeft64 ['7', 'f']) :=
  C1_roundtrip_padded ['7', 'f'] (by decide) (by decide) (by decide)

/-- C2: every successfully constructed key has exactly 32 bytes, and its
big-endian value is strictly below the curve order. -/
theorem C2_key_invariant (s : List Char) (pk : PrivateKey)
    (h : from_str s = .ok pk) :
    pk.key.length = 32 ∧ ofDigitsBE 256 pk.key < Nvalue := by
  obtain ⟨h1, -, h3⟩ := from_str_key_facts s pk h
  exact ⟨h1, h3⟩

/-- C2 witness: instantiation at the input `"123"`. -/
theorem C2_witness :
    (⟨List.replicate 29 0 ++ [0, 1, 35]⟩ : PrivateKey).key.length = 32 ∧
      ofDigitsBE 256 (⟨List.replicate 29 0 ++ [0, 1, 35]⟩ : PrivateKey).key < Nvalue :=
  C2_key_invariant ['1', '2', '3'] _ (by rfl)

/-- C3: every valid-hex input of at most 64 characters whose value is at
least the curve order is rejected with `GreaterThanCurveOrder`; the
comparison performed is lexicographic byte comparison against `NBytes`,
which on equal-length byte lists coincides with numeric comparison
(`lexLt_iff`). -/
theorem C3_ge_curve_order (s : List Char) (h64 : s.length ≤ 64)
    (hhex : ∀ c ∈ s, (hexVal? c).isSome) (hge : Nvalue ≤ hexStrValue s) :
    from_str s = .error .GreaterThanCurveOrder := by
  obtain ⟨bs, hd, hv, -⟩ := hexDecode_padded_ok s h64 hhex
  obtain ⟨-, hdp⟩ := hexDecode_ok_inv _ _ hd
  have hplen : (padLeft64 s).length = 64 := padLeft64_length s h64
  have hlen : bs.length = 32 := by
    have := decodePairs_length _ _ _ hdp
    omega
  have hlt := decodePairs_lt _ _ _ hdp
  have hlex : ¬lexLt bs NBytes = true := fun hcontra =>
    absurd ((lexLt_iff bs NBytes (by rw [hlen, NBytes_length]) hlt NBytes_lt).mp
      hcontra) (by rw [hv, NBytes_value]; omega)
  rw [from_str_eq_ok s h64 bs hd, if_neg hlex]

/-- C3 witness: instantiation at the exact (uppercase) hex string of n. -/
theorem C3_witness : from_str N = .error .GreaterThanCurveOrder :=
  C3_ge_curve_order N (by decide) (by decide) (by decide)

/-- C5: for every constructed key, the compressed hex string is the plain
hex string with `"01"` appended, and it is 66 characters long. -/
theorem C5_compressed_hex (s : List Char) (pk : PrivateKey)
    (h : from_str s = .ok pk) :
    as_hex_compressed_string pk = as_hex_string pk ++ ['0', '1'] ∧
      (as_hex_compressed_string pk).length = 66 := by
  obtain ⟨hlen, -, -⟩ := from_str_key_facts s pk h
  constructor
  · rw [as_hex_compressed_string, as_hex_string, hexEncode_append]
    rfl
  · rw [as_hex_compressed_string, hexEncode_length]
    simp [hlen]

/-- C5 witness: instantiation at the input `"123"`. -/
theorem C5_witness :
    as_hex_compressed_string ⟨List.replicate 29 0 ++ [0, 1, 35]⟩ =
        as_hex_string ⟨List.replicate 29 0 ++ [0, 1, 35]⟩ ++ ['0', '1'] ∧
      (as_hex_compressed_string ⟨List.replicate 29 0 ++ [0, 1, 35]⟩).length = 66 :=
  C5_compressed_hex ['1', '2', '3'] _ (by rfl)

/-- C6: every input longer than 64 characters is rejected with
`InvalidSize`, regardless of its content — the length check precedes
decoding. -/
theorem C6_oversize (s : List Char) (h : 64 < s.length) :
    from_str s = .error .InvalidSize := by
  rw [from_str, if_pos (by omega)]

/-- C6 witness: a 65-character input made of non-hex characters. -/
theorem C6_witness : from_str (List.replicate 65 'z') = .error .InvalidSize :=
  C6_oversize _ (by decide)

/-- C7: an input of at most 64 characters whose first non-hex character is
`c` fails with `InvalidHex` carrying exactly `c` and the zero-based index
at which `c` sits in the decoded (left-padded 64-character) string,
`64 - length + i`. -/
theorem C7_invalid_hex (t : List Char) (c : Char) (r : List Char)
    (h64 : (t ++ c :: r).length ≤ 64)
    (ht : ∀ x ∈ t, (hexVal? x).isSome) (hc : hexVal? c = none) :
    from_str (t ++ c :: r) =
      .error (.InvalidHex (.InvalidHexCharacter c
        (64 - (t ++ c :: r).length + t.length))) :=
  from_str_first_bad_char t c r h64 ht hc

/-- C7 witness: a full-length 64-character input ending in `'v'` (the
repository's own test case), reported at index 63. -/
theorem C7_witness :
    from_str (List.replicate 63 'f' ++ 'v' :: []) =
      .error (.InvalidHex (.InvalidHexCharacter 'v'
        (64 - (List.replicate 63 'f' ++ 'v' :: []).length +
          (List.replicate 63 'f').length))) :=
  C7_invalid_hex (List.replicate 63 'f') 'v' [] (by decide)
    (by decide) (by decide)

/-- C10: for inputs shorter than 64 characters, the index carried by
`InvalidHex` is `64 - length + i` — the position of the offending
character in the zero-padded string (as the second conjunct states), not
its position in the caller's original input. -/
theorem C10_padded_index (t : List Char) (c : Char) (r : List Char)
    (hlt64 : (t ++ c :: r).length < 64)
    (ht : ∀ x ∈ t, (hexVal? x).isSome) (hc : hexVal? c = none) :
    from_str (t ++ c :: r) =
      .error (.InvalidHex (.InvalidHexCharacter c
        (64 - (t ++ c :: r).length + t.length))) ∧
      (padLeft64 (t ++ c :: r)).getD
        (64 - (t ++ c :: r).length + t.length) ' ' = c := by
  refine ⟨from_str_first_bad_char t c r (by omega) ht hc, ?_⟩
  have hassoc : padLeft64 (t ++ c :: r) =
      (List.replicate (64 - (t ++ c :: r).length) '0' ++ t) ++ c :: r := by
    rw [padLeft64, List.append_assoc]
  rw [hassoc, List.getD_append_right _ _ _ _ (by simp)]
  simp

/-- C8 (code bug): `to_byte_array` as written in
`src/utils/to_byte_array.rs` calls `.unwrap()` on `hex::decode`'s result,
so on a non-hex character or an odd-length string it panics (modelled as
`none`) instead of returning the `InvalidHex` error that `hex::decode`
itself produces. -/
theorem C8_decode_panics :
    to_byte_array ['0', 'v'] = none ∧
      hexDecode ['0', 'v'] = .error (.InvalidHexCharacter 'v' 1) ∧
      to_byte_array ['0', '0', '0'] = none ∧
      hexDecode ['0', '0', '0'] = .error .OddLength :=
  ⟨rfl, rfl, rfl, rfl⟩

/-- Decimal digit characters decode back to their value. -/
theorem decDigit_val :
    ∀ d : Nat, d < 10 → ("0123456789".data.getD d '0').toNat - 48 = d := by decide

/-- C9: `as_decimals` renders the 32-byte buffer interpreted as an
unsigned big-endian integer in base 10: reading its output back as
decimal digits yields exactly the buffer's value; the all-zero key
renders as `"0"`, and the maximum valid key n−1 renders as the decimal
expansion of n−1. -/
theorem C9_decimal :
    (∀ (s : List Char) (pk : PrivateKey), from_str s = .ok pk →
        ofDigitsBE 10 ((as_decimals pk).map fun c => c.toNat - 48) =
          ofDigitsBE 256 pk.key) ∧
      as_decimals ⟨List.replicate 32 0⟩ = ['0'] ∧
      from_str
          "fffffffffffffffffffffffffffffffebaaedce6af48a03bbfd25e8cd0364140".data =
        .ok ⟨[255, 255, 255, 255, 255, 255, 255, 255, 255, 255, 255, 255, 255, 255,
          255, 254, 186, 174, 220, 230, 175, 72, 160, 59, 191, 210, 94, 140, 208,
          54, 65, 64]⟩ ∧
      as_decimals ⟨[255, 255, 255, 255, 255, 255, 255, 255, 255, 255, 255, 255,
          255, 255, 255, 254, 186, 174, 220, 230, 175, 72, 160, 59, 191, 210, 94,
          140, 208, 54, 65, 64]⟩ =
        ("115792089237316195423570985008687907852837564279074904382605163141518161494336").data := by
  refine ⟨?_, by decide, by rfl, by decide⟩
  intro s pk h
  rw [as_decimals, natToDecimal]
  by_cases hv : ofDigitsBE 256 pk.key = 0
  · rw [if_pos hv, hv]; rfl
  · rw [if_neg hv, List.map_map]
    have hdig : ∀ d ∈ digitsBE 10 (ofDigitsBE 256 pk.key), d < 10 :=
      digitsBE_lt 10 _ (by norm_num)
    have hmap : (digitsBE 10 (ofDigitsBE 256 pk.key)).map
        ((fun c => c.toNat - 48) ∘ fun d => "0123456789".data.getD d '0') =
        (digitsBE 10 (ofDigitsBE 256 pk.key)).map id :=
      List.map_congr_left fun d hd => by
        simp only [Function.comp_apply, id_eq]
        exact decDigit_val d (hdig d hd)
    rw [hmap, List.map_id, ofDigitsBE_digitsBE 10 _ (by norm_num)]

/-- C9 witness: instantiation of the universally quantified conjunct at
the input `"123"`. -/
theorem C9_witness :
    ofDigitsBE 10
        ((as_decimals ⟨List.replicate 29 0 ++ [0, 1, 35]⟩).map fun c => c.toNat - 48) =
      ofDigitsBE 256 (⟨List.replicate 29 0 ++ [0, 1, 35]⟩ : PrivateKey).key :=
  C9_decimal.1 ['1', '2', '3'] _ (by rfl)

/-- C4: for every constructed key and any byte-valued 32-byte hash
primitive, `as_wif` Base58-encodes the 37-byte sequence
`0x80 ++ key ++ checksum` and `as_wif_compressed` the 38-byte sequence
`0x80 ++ key ++ 0x01 ++ checksum`; Base58-decoding either output recovers
exactly that payload, whose last 4 bytes equal the checksum recomputed
over the preceding bytes. -/
theorem C4_wif_roundtrip (hash : List Nat → List Nat)
    (hhash : ∀ bs, (hash bs).length = 32 ∧ ∀ x ∈ hash bs, x < 256)
    (s : List Char) (pk : PrivateKey) (h : from_str s = .ok pk) :
    (as_wif hash pk).1 =
        base58encode ((0x80 :: pk.key) ++ checksum hash (0x80 :: pk.key)) ∧
      ((0x80 :: pk.key) ++ checksum hash (0x80 :: pk.key)).length = 37 ∧
      base58decode (as_wif hash pk).1 =
        some ((0x80 :: pk.key) ++ checksum hash (0x80 :: pk.key)) ∧
      ((0x80 :: pk.key) ++ checksum hash (0x80 :: pk.key)).drop 33 =
        checksum hash (((0x80 :: pk.key) ++ checksum hash (0x80 :: pk.key)).take 33) ∧
      (as_wif_compressed hash pk).1 =
        base58encode ((0x80 :: (pk.key ++ [0x01])) ++
          checksum hash (0x80 :: (pk.key ++ [0x01]))) ∧
      ((0x80 :: (pk.key ++ [0x01])) ++
          checksum hash (0x80 :: (pk.key ++ [0x01]))).length = 38 ∧
      base58decode (as_wif_compressed hash pk).1 =
        some ((0x80 :: (pk.key ++ [0x01])) ++
          checksum hash (0x80 :: (pk.key ++ [0x01]))) ∧
      ((0x80 :: (pk.key ++ [0x01])) ++
          checksum hash (0x80 :: (pk.key ++ [0x01]))).drop 34 =
        checksum hash (((0x80 :: (pk.key ++ [0x01])) ++
          checksum hash (0x80 :: (pk.key ++ [0x01]))).take 34) := by
  obtain ⟨hklen, hklt, -⟩ := from_str_key_facts s pk h
  have main : ∀ p : List Nat, p ≠ [] → p.headD 1 ≠ 0 → (∀ x ∈ p, x < 256) →
      base58decode (base58encode (p ++ checksum hash p)) =
          some (p ++ checksum hash p) ∧
        (p ++ checksum hash p).length = p.length + 4 ∧
        (p ++ checksum hash p).drop p.length =
          checksum hash ((p ++ checksum hash p).take p.length) := by
    intro p hpne hph hplt
    have hcslen : (checksum hash p).length = 4 := by
      rw [checksum, List.length_take, (hhash (hash p)).1]
      norm_num
    have hcslt : ∀ x ∈ checksum hash p, x < 256 := fun x hx =>
      (hhash (hash p)).2 x (List.take_subset _ _ hx)
    have hne : p ++ checksum hash p ≠ [] := by
      obtain ⟨a, t, rfl⟩ := List.exists_cons_of_ne_nil hpne
      simp
    have hhead : (p ++ checksum hash p).headD 1 ≠ 0 := by
      obtain ⟨a, t, rfl⟩ := List.exists_cons_of_ne_nil hpne
      simpa using hph
    have hlt : ∀ x ∈ p ++ checksum hash p, x < 256 := by
      intro x hx
      rcases List.mem_append.mp hx with hx | hx
      · exact hplt x hx
      · exact hcslt x hx
    refine ⟨base58_roundTrip _ hne hhead hlt, ?_, ?_⟩
    · rw [List.length_append, hcslen]
    · rw [List.drop_left, List.take_left]
  obtain ⟨hrt1, hlen1, hcs1⟩ := main (0x80 :: pk.key) (by simp) (by simp)
    (by
      intro x hx
      rcases List.mem_cons.mp hx with hx | hx
      · omega
      · exact hklt x hx)
  obtain ⟨hrt2, hlen2, hcs2⟩ := main (0x80 :: (pk.key ++ [0x01])) (by simp) (by simp)
    (by
      intro x hx
      rcases List.mem_cons.mp hx with hx | hx
      · omega
      · rcases List.mem_append.mp hx with hx | hx
        · exact hklt x hx
        · simp at hx; omega)
  have hp1len : (0x80 :: pk.key).length = 33 := by simp [hklen]
  have hp2len : (0x80 :: (pk.key ++ [0x01])).length = 34 := by simp [hklen]
  refine ⟨rfl, ?_, hrt1, ?_, rfl, ?_, hrt2, ?_⟩
  · rw [hlen1, hp1len]
  · rw [← hp1len]; exact hcs1
  · rw [hlen2, hp2len]
  · rw [← hp2len]; exact hcs2

/-- C4 witness: instantiation at the input `"01"` with the concrete
byte-valued hash `fun _ => List.replicate 32 7`. -/
theorem C4_witness :
    (as_wif (fun _ => List.replicate 32 7) ⟨List.replicate 31 0 ++ [1]⟩).1 =
        base58encode ((0x80 :: (List.replicate 31 0 ++ [1])) ++
          checksum (fun _ => List.replicate 32 7)
            (0x80 :: (List.replicate 31 0 ++ [1]))) ∧
      ((0x80 :: (List.replicate 31 0 ++ [1])) ++
          checksum (fun _ => List.replicate 32 7)
            (0x80 :: (List.replicate 31 0 ++ [1]))).length = 37 ∧
      base58decode (as_wif (fun _ => List.replicate 32 7)
          ⟨List.replicate 31 0 ++ [1]⟩).1 =
        some ((0x80 :: (List.replicate 31 0 ++ [1])) ++
          checksum (fun _ => List.replicate 32 7)
            (0x80 :: (List.replicate 31 0 ++ [1]))) ∧
      ((0x80 :: (List.replicate 31 0 ++ [1])) ++
          checksum (fun _ => List.replicate 32 7)
            (0x80 :: (List.replicate 31 0 ++ [1]))).drop 33 =
        checksum (fun _ => List.replicate 32 7)
          (((0x80 :: (List.replicate 31 0 ++ [1])) ++
            checksum (fun _ => List.replicate 32 7)
              (0x80 :: (List.replicate 31 0 ++ [1]))).take 33) ∧
      (as_wif_compressed (fun _ => List.replicate 32 7)
          ⟨List.replicate 31 0 ++ [1]⟩).1 =
        base58encode ((0x80 :: ((List.replicate 31 0 ++ [1]) ++ [0x01])) ++
          checksum (fun _ => List.replicate 32 7)
            (0x80 :: ((List.replicate 31 0 ++ [1]) ++ [0x01]))) ∧
      ((0x80 :: ((List.replicate 31 0 ++ [1]) ++ [0x01])) ++
          checksum (fun _ => List.replicate 32 7)
            (0x80 :: ((List.replicate 31 0 ++ [1]) ++ [0x01]))).length = 38 ∧
      base58decode (as_wif_compressed (fun _ => List.replicate 32 7)
          ⟨List.replicate 31 0 ++ [1]⟩).1 =
        some ((0x80 :: ((List.replicate 31 0 ++ [1]) ++ [0x01])) ++
          checksum (fun _ => List.replicate 32 7)
            (0x80 :: ((List.replicate 31 0 ++ [1]) ++ [0x01]))) ∧
      ((0x80 :: ((List.replicate 31 0 ++ [1]) ++ [0x01])) ++
          checksum (fun _ => List.replicate 32 7)
            (0x80 :: ((List.replicate 31 0 ++ [1]) ++ [0x01]))).drop 34 =
        checksum (fun _ => List.replicate 32 7)
          (((0x80 :: ((List.replicate 31 0 ++ [1]) ++ [0x01])) ++
            checksum (fun _ => List.replicate 32 7)
              (0x80 :: ((List.replicate 31 0 ++ [1]) ++ [0x01]))).take 34) :=
  C4_wif_roundtrip (fun _ => List.replicate 32 7)
    (fun bs => ⟨by simp, fun x hx => by
      have := List.eq_of_mem_replicate hx; omega⟩)
    ['0', '1'] ⟨List.replicate 31 0 ++ [1]⟩ (by rfl)

/-- C10 witness: `from_str "v"` reports `'v'` at index 63 (the
repository's own test expectation). -/
theorem C10_witness :
    (from_str ([] ++ 'v' :: []) =
      .error (.InvalidHex (.InvalidHexCharacter 'v'
        (64 - (([] : List Char) ++ 'v' :: []).length + ([] : List Char).length))) ∧
      (padLeft64 ([] ++ 'v' :: [])).getD
        (64 - (([] : List Char) ++ 'v' :: []).length + ([] : List Char).length)
        ' ' = 'v') :=
  C10_padded_index [] 'v' [] (by decide) (by decide) (by decide)

end Btcli
